import Mathlib

/-!
Verification of the MRPrimes candidate-search core (mrprimes.c) against its
natural-language specification.  The C functions are shallowly embedded as
executable Lean functions over `Nat` (GMP integers are unbounded, and every
quantity handled by the embedded functions is non-negative); the loops of the
C source that have no structural termination measure are given an explicit
fuel parameter, and the theorems quantify over a sufficient fuel.
-/

namespace MRPrimes

/-! ## Wheel sieve: offset-prime table (init_offsets, mrprimes.c lines 55-74) -/

/-- Model of the trial-division test inside `init_offsets` (mrprimes.c lines
61-69): the candidate `n` is kept when no previously found prime divides it. -/
def trial_is_prime (found : List ℕ) (n : ℕ) : Bool :=
  found.all (fun p => decide (n % p ≠ 0))

/-- Model of the `while (np < num_offsets)` loop of `init_offsets` (mrprimes.c
lines 59-73): scan the odd integers from `n` upwards, appending each one that
survives trial division against the primes already found, until `count`
primes have been found.  The C loop carries no fuel; the fuel only makes the
recursion structural and the theorems quantify over a sufficiently large
fuel. -/
def init_offsets_go : ℕ → List ℕ → ℕ → ℕ → List ℕ
  | 0, found, _, _ => found
  | fuel + 1, found, n, count =>
      if found.length < count then
        init_offsets_go fuel
          (if trial_is_prime found n then found ++ [n] else found) (n + 2) count
      else found

/-- Model of `init_offsets` (mrprimes.c lines 55-74): the scan starts at the
first odd prime 3 with an empty table. -/
def init_offsets (fuel count : ℕ) : List ℕ :=
  init_offsets_go fuel [] 3 count

/-- Specification-side definition (spec section 4.1, "the first `count` odd
primes (3, 5, 7, 11, ...)"): the least prime that is at least `n`. -/
def nextPrime (n : ℕ) : ℕ :=
  Nat.find (Nat.exists_infinite_primes n)

/-- Specification-side definition: the first `k` primes that are at least `n`,
in increasing order.  Starting from an odd `n ≥ 3` every listed prime is odd,
and the successor scan restarts at the next odd integer. -/
def firstOddPrimesFrom : ℕ → ℕ → List ℕ
  | 0, _ => []
  | k + 1, n => nextPrime n :: firstOddPrimesFrom k (nextPrime n + 2)

/-- Specification-side definition: the first `count` odd primes 3, 5, 7, 11, ... -/
def firstOddPrimes (count : ℕ) : List ℕ :=
  firstOddPrimesFrom count 3

/-! ## Miller-Rabin tester (miller_rabin, mrprimes.c lines 85-138) -/

/-- Model of the `while (mpz_even_p (d))` loop of `miller_rabin` (mrprimes.c
lines 94-98): repeatedly halve `m` while it is even, counting the halvings.
The first component is the count `s`, the second the remaining odd part `d`.
The fuel makes the recursion structural; fuel `m` is always sufficient for
`m > 0` (for `m = 0` the C loop would not terminate, and no caller reaches
that case since the tested candidates exceed 4). -/
def factorTwosGo : ℕ → ℕ → ℕ × ℕ
  | 0, m => (0, m)
  | fuel + 1, m =>
      if m % 2 = 0 then
        let r := factorTwosGo fuel (m / 2)
        (r.1 + 1, r.2)
      else (0, m)

/-- Model of the decomposition `n - 1 = 2^s * d` computed by `miller_rabin`
(mrprimes.c lines 88-98), applied to `m = n - 1`. -/
def factorTwos (m : ℕ) : ℕ × ℕ :=
  factorTwosGo m m

/-- Model of the squaring loop `for (r = 1; r < s; ++r)` of `miller_rabin`
(mrprimes.c lines 119-134): square `x` modulo `n`; a result of 1 means the
whole test returns FALSE, a result of `n - 1` breaks out of the loop with the
round passed.  After the loop the C code returns FALSE exactly when the
counter `r` equals `s`, so when the fuel (which keeps `fuel = s - r`) runs
out the round passes if and only if `r ≠ s`. -/
def mrSquarLoop (n s : ℕ) : ℕ → ℕ → ℕ → Bool
  | 0, r, _ => decide (r ≠ s)
  | fuel + 1, r, x =>
      if x * x % n = 1 then false
      else if x * x % n = n - 1 then true
      else mrSquarLoop n s fuel (r + 1) (x * x % n)

/-- Model of one witness round of `miller_rabin` (mrprimes.c lines 100-135)
with witness `a`: compute `x = a^d mod n`; the round passes immediately when
`x ∈ {1, n - 1}` and otherwise runs the squaring loop from `r = 1`. -/
def mrWitnessRound (n s d a : ℕ) : Bool :=
  if a ^ d % n = 1 ∨ a ^ d % n = n - 1 then true
  else mrSquarLoop n s (s - 1) 1 (a ^ d % n)

/-- Model of `miller_rabin` (mrprimes.c lines 85-138).  The `k` rounds draw
`k` values from the random source; `draws` is the list of raw `mpz_urandomm`
results (each in `[0, n - 5]`, since the modulus passed is `n - 4`), and the
witness used in a round is `draw + 2` (mrprimes.c line 110).  The test
answers TRUE exactly when every round passes; a failing round makes the C
function return FALSE at once, which agrees with `List.all`. -/
def miller_rabin (n : ℕ) (draws : List ℕ) : Bool :=
  draws.all (fun r => mrWitnessRound n (factorTwos (n - 1)).1 (factorTwos (n - 1)).2 (r + 2))

/-! ## Candidate generator (gen_start, mrprimes.c lines 141-171) -/

/-- Value of a decimal digit string as assembled by `mpz_set_str` with
`BASE = 10` (mrprimes.c lines 148-155 and 162-166). -/
def digitsToNat (ds : List ℕ) : ℕ :=
  ds.foldl (fun acc d => acc * 10 + d) 0

/-- Model of the first string built by `gen_start` (mrprimes.c lines 148-155):
the digit 4, the digit 5, then `num_digits - 2` zeros, i.e. `45 * 10^(d-2)`.
This is the (exclusive) bound handed to `mpz_urandomm`. -/
def gen_start_modulus (num_digits : ℕ) : ℕ :=
  digitsToNat (4 :: 5 :: List.replicate (num_digits - 2) 0)

/-- Model of the second string built by `gen_start` (mrprimes.c lines
162-166): the digit 1, the digit 0, then `num_digits - 2` zeros, i.e.
`10^(d-1)` (the in-source comment miscounts the zeros; the stored characters
are 1 and 0 followed by the `num_digits - 2` zeros already in the buffer). -/
def gen_start_base (num_digits : ℕ) : ℕ :=
  digitsToNat (1 :: 0 :: List.replicate (num_digits - 2) 0)

/-- Model of `gen_start` (mrprimes.c lines 141-171) as a function of the raw
`mpz_urandomm` draw `r < gen_start_modulus num_digits`: the draw is doubled
(`mpz_mul_2exp` by 1), the second string value is added, then 1 is added. -/
def gen_start (num_digits r : ℕ) : ℕ :=
  r * 2 + gen_start_base num_digits + 1

/-! ## Offset vector (offset_init / update_offsets, mrprimes.c lines 174-193) -/

/-- Model of `offset_init` (mrprimes.c lines 174-183): for each table prime
`p`, take the candidate modulo `p`, add `p` if that remainder is odd, and
halve. -/
def offset_init (n : ℕ) (primes : List ℕ) : List ℕ :=
  primes.map (fun p => (n % p + n % p % 2 * p) / 2)

/-- Model of `update_offsets` (mrprimes.c lines 186-193): increment each of
the first `primes.length` offsets, resetting an offset to 0 when it reaches
its prime.  Entries of `offsets` beyond the table length (the sentinel slot
of `find_prime`) are left untouched, exactly as the C loop only writes the
indices below `num_offsets`. -/
def update_offsets : List ℕ → List ℕ → List ℕ
  | [], offsets => offsets
  | _ :: _, [] => []
  | p :: ps, o :: os => (if o + 1 = p then 0 else o + 1) :: update_offsets ps os

/-- Per-prime invariant maintained by the wheel for candidate `n`: the offset
is a least residue and twice the offset is congruent to the candidate. -/
def offsetInv (n p o : ℕ) : Prop :=
  o < p ∧ 2 * o % p = n % p

/-- Whole-table invariant of the offset vector for candidate `n` (pairs the
table primes with the offsets and forces equal lengths). -/
def wheelInv (n : ℕ) (primes offsets : List ℕ) : Prop :=
  List.Forall₂ (offsetInv n) primes offsets

/-! ## Zero-offset scan and candidate advance (mrprimes.c lines 196-215) -/

/-- Number of entries the sentinel scan of `any_offset_equals_zero`
(mrprimes.c lines 196-204) steps over before hitting the first zero: the
pointer walk reads exactly `firstZero offsets + 1` array slots.  (If the list
contained no zero at all the C scan would run past the array; the callers
always place a 0 sentinel at the end.) -/
def firstZero : List ℕ → ℕ
  | [] => 0
  | o :: os => if o = 0 then 0 else firstZero os + 1

/-- Model of `any_offset_equals_zero` (mrprimes.c lines 196-204): the pointer
difference at the first zero differs from `num_offsets` exactly when some
real offset (index below `num_offsets`) is zero. -/
def any_offset_equals_zero (num_offsets : ℕ) (offsets : List ℕ) : Bool :=
  decide (firstZero offsets ≠ num_offsets)

/-- Model of `next_test` (mrprimes.c lines 206-215): while some offset is
zero, add 2 to the test value and update the offsets.  `primes` is the
offset-prime table (the C global `offset_primes` together with
`num_offsets = primes.length`).  The fuel makes the loop structural; `none`
means the fuel ran out before the loop finished. -/
def next_test : ℕ → ℕ → List ℕ → List ℕ → Option (ℕ × List ℕ)
  | 0, n, primes, offsets =>
      if any_offset_equals_zero primes.length offsets then none else some (n, offsets)
  | fuel + 1, n, primes, offsets =>
      if any_offset_equals_zero primes.length offsets then
        next_test fuel (n + 2) primes (update_offsets primes offsets)
      else some (n, offsets)

/-! ## Result output (tail of find_prime, mrprimes.c lines 256-267) -/

/-- Outcome of a process-level action: either the whole process exits with
the given status code, or the action completes with a value. -/
inductive ProcResult (α : Type) where
  | exited : ℕ → ProcResult α
  | ok : α → ProcResult α
deriving DecidableEq

/-- Model of the output section of `find_prime` (mrprimes.c lines 256-267):
under the output-file lock, open the file for append; on failure print an
error and `exit (EXIT_FAILURE)` (status 1), otherwise append the found prime
as one further line and close the file.  `can_open` abstracts whether `fopen`
succeeds, `file` is the sequence of lines already in the output file. -/
def write_found_prime (can_open : Bool) (file : List ℕ) (prime : ℕ) : ProcResult (List ℕ) :=
  if can_open then ProcResult.ok (file ++ [prime]) else ProcResult.exited 1

/-! ## Argument parsing (main, mrprimes.c lines 301-446) -/

/-- Model of the variable `char **invalid_int = NULL` (mrprimes.c line 317):
it is initialised to NULL and never assigned afterwards. -/
def invalid_int : Option (Option (List Char)) :=
  none

/-- Model of `strtol (s, invalid_int, 10)` acting on the argument string:
skip leading white space, consume an optional sign, then the maximal leading
run of decimal digits (value 0 when there are none).  The `endptr` argument
is `invalid_int = NULL`, so `strtol` stores nothing. -/
def strtolLoop : List Char → ℕ → ℕ
  | [], acc => acc
  | c :: cs, acc => if c.isDigit then strtolLoop cs (acc * 10 + (c.toNat - 48)) else acc

/-- Model of the value returned by `strtol` with base 10 on an argument string. -/
def strtol10 (s : List Char) : ℤ :=
  match s.dropWhile (fun c => c == ' ' || c == '\t' || c == '\n') with
  | '-' :: rest => -(strtolLoop rest 0 : ℤ)
  | '+' :: rest => (strtolLoop rest 0 : ℤ)
  | s1 => (strtolLoop s1 0 : ℤ)

/-- Model of the `-O` argument check (mrprimes.c lines 339-344): the parsed
number of offset primes is rejected when it is `≤ 0` or when `invalid_int`
is non-NULL; `none` is the error exit. -/
def check_num_offsets (s : List Char) : Option ℤ :=
  if strtol10 s ≤ 0 ∨ invalid_int.isSome = true then none else some (strtol10 s)

/-- Model of the `-n` argument check (mrprimes.c lines 357-362). -/
def check_num_primes (s : List Char) : Option ℤ :=
  if strtol10 s ≤ 0 ∨ invalid_int.isSome = true then none else some (strtol10 s)

/-- Model of the `-d` argument check (mrprimes.c lines 375-380): the number
of digits is rejected when it is below 10 or when `invalid_int` is
non-NULL. -/
def check_num_digits (s : List Char) : Option ℤ :=
  if strtol10 s < 10 ∨ invalid_int.isSome = true then none else some (strtol10 s)

/-- Model of the `-s` argument check (mrprimes.c lines 394-400). -/
def check_seed (s : List Char) : Option ℤ :=
  if strtol10 s < 0 ∨ invalid_int.isSome = true then none else some (strtol10 s)

/-- Model of the `-p` argument check (mrprimes.c lines 413-418). -/
def check_precision (s : List Char) : Option ℤ :=
  if strtol10 s ≤ 0 ∨ 200 ≤ strtol10 s ∨ invalid_int.isSome = true then none
  else some (strtol10 s)

/-- Range-only variant of the `-O` check, with the `invalid_int` test removed. -/
def check_num_offsets_range (s : List Char) : Option ℤ :=
  if strtol10 s ≤ 0 then none else some (strtol10 s)

/-- Range-only variant of the `-n` check. -/
def check_num_primes_range (s : List Char) : Option ℤ :=
  if strtol10 s ≤ 0 then none else some (strtol10 s)

/-- Range-only variant of the `-d` check. -/
def check_num_digits_range (s : List Char) : Option ℤ :=
  if strtol10 s < 10 then none else some (strtol10 s)

/-- Range-only variant of the `-s` check. -/
def check_seed_range (s : List Char) : Option ℤ :=
  if strtol10 s < 0 then none else some (strtol10 s)

/-- Range-only variant of the `-p` check. -/
def check_precision_range (s : List Char) : Option ℤ :=
  if strtol10 s ≤ 0 ∨ 200 ≤ strtol10 s then none else some (strtol10 s)

/-- Rejection condition applied by `main` to the `-d` (number of digits)
value (mrprimes.c line 376): `num_digits < 10 || invalid_int`. -/
def num_digits_rejected (d : ℤ) : Bool :=
  decide (d < 10) || invalid_int.isSome

/-! ## Lemmas about the offset vector -/

/-- Membership-aware monotonicity of `List.Forall₂` in the relation. -/
theorem forall₂_imp_mem {R S : ℕ → ℕ → Prop} :
    ∀ {ps os : List ℕ}, (∀ p o, p ∈ ps → R p o → S p o) →
      List.Forall₂ R ps os → List.Forall₂ S ps os
  | _, _, _, List.Forall₂.nil => List.Forall₂.nil
  | p :: _, o :: _, h, List.Forall₂.cons hh ht =>
      List.Forall₂.cons (h p o (by simp) hh)
        (forall₂_imp_mem (fun q o' hq => h q o' (by simp [hq])) ht)

/-- Every left element of a `List.Forall₂` pair has a related right element. -/
theorem forall₂_forall_left {R : ℕ → ℕ → Prop} :
    ∀ {ps os : List ℕ}, List.Forall₂ R ps os → ∀ p ∈ ps, ∃ o ∈ os, R p o
  | _, _, List.Forall₂.nil => by simp
  | p :: _, o :: _, List.Forall₂.cons hh ht => by
      intro q hq
      rcases List.mem_cons.mp hq with rfl | hq
      · exact ⟨o, by simp, hh⟩
      · rcases forall₂_forall_left ht q hq with ⟨o', ho', hro'⟩
        exact ⟨o', by simp [ho'], hro'⟩

/-- Every right element of a `List.Forall₂` pair has a related left element. -/
theorem forall₂_forall_right {R : ℕ → ℕ → Prop} :
    ∀ {ps os : List ℕ}, List.Forall₂ R ps os → ∀ o ∈ os, ∃ p ∈ ps, R p o
  | _, _, List.Forall₂.nil => by simp
  | p :: _, o :: _, List.Forall₂.cons hh ht => by
      intro o' ho'
      rcases List.mem_cons.mp ho' with rfl | ho'
      · exact ⟨p, by simp, hh⟩
      · rcases forall₂_forall_right ht o' ho' with ⟨q, hq, hrq⟩
        exact ⟨q, by simp [hq], hrq⟩

/-- The entry computed by `offset_init` for an odd table prime `p` satisfies
the per-prime invariant. -/
theorem offset_init_spec (n p : ℕ) (hp : Odd p) :
    offsetInv n p ((n % p + n % p % 2 * p) / 2) := by
  obtain ⟨k, hk⟩ := hp
  have hp0 : 0 < p := by omega
  have hr : n % p < p := Nat.mod_lt _ hp0
  set r := n % p with hrdef
  constructor
  · rcases Nat.mod_two_eq_zero_or_one r with h2 | h2 <;> rw [h2] <;> omega
  · rcases Nat.mod_two_eq_zero_or_one r with h2 | h2
    · rw [h2]
      have he : 2 * ((r + 0 * p) / 2) = r := by omega
      rw [he]
      exact Nat.mod_eq_of_lt hr
    · rw [h2]
      have he : 2 * ((r + 1 * p) / 2) = r + p := by omega
      rw [he, Nat.add_mod_right]
      exact Nat.mod_eq_of_lt hr

/-- Establishment half of the wheel invariant: `offset_init` computes a valid
offset vector for any table of odd primes. -/
theorem offset_init_inv (n : ℕ) (primes : List ℕ) (hp : ∀ p ∈ primes, Odd p) :
    wheelInv n primes (offset_init n primes) := by
  induction primes with
  | nil => exact List.Forall₂.nil
  | cons p ps ih =>
      simp only [offset_init, List.map_cons] at *
      exact List.Forall₂.cons (offset_init_spec n p (hp p (by simp)))
        (ih fun q hq => hp q (by simp [hq]))

/-- Preservation of the per-prime invariant by one `update_offsets` step in
lock-step with one `+2` increment of the candidate. -/
theorem update_offset_spec (n p o : ℕ) (h : offsetInv n p o) :
    offsetInv (n + 2) p (if o + 1 = p then 0 else o + 1) := by
  obtain ⟨hlt, hcong⟩ := h
  have hp0 : 0 < p := lt_of_le_of_lt (Nat.zero_le o) hlt
  have hstep : (2 * o + 2) % p = (n + 2) % p := by
    conv_lhs => rw [Nat.add_mod, hcong, ← Nat.add_mod]
  by_cases he : o + 1 = p
  · rw [if_pos he]
    refine ⟨hp0, ?_⟩
    have h2p : 2 * o + 2 = 2 * p := by omega
    rw [h2p] at hstep
    simpa using hstep
  · rw [if_neg he]
    refine ⟨by omega, ?_⟩
    have h2 : 2 * (o + 1) = 2 * o + 2 := by omega
    rw [h2]
    exact hstep

/-- Preservation half of the wheel invariant, lifted to whole tables (no
assumption on the primes is needed). -/
theorem update_offsets_inv (n : ℕ) (primes offsets : List ℕ)
    (h : wheelInv n primes offsets) :
    wheelInv (n + 2) primes (update_offsets primes offsets) := by
  induction h with
  | nil => exact List.Forall₂.nil
  | cons hh ht ih => exact List.Forall₂.cons (update_offset_spec _ _ _ hh) ih

/-- For an odd table prime, the invariant makes the offset vanish exactly on
the multiples of the prime. -/
theorem offsetInv_zero_iff (n p o : ℕ) (hp : Odd p) (h : offsetInv n p o) :
    o = 0 ↔ p ∣ n := by
  obtain ⟨hlt, hcong⟩ := h
  constructor
  · rintro rfl
    apply Nat.dvd_of_mod_eq_zero
    simpa using hcong.symm
  · intro hdvd
    have h0 : n % p = 0 := Nat.mod_eq_zero_of_dvd hdvd
    have h2 : p ∣ 2 * o := Nat.dvd_of_mod_eq_zero (by rw [hcong, h0])
    have hco : p.Coprime 2 := Nat.coprime_two_right.mpr hp
    exact Nat.eq_zero_of_dvd_of_lt (hco.dvd_of_dvd_mul_left h2) hlt

/-! ## Lemmas about the sentinel scan and the advance loop -/

/-- The sentinel scan never walks past the trailing 0: it stops after at most
`front.length` non-sentinel entries. -/
theorem firstZero_append_le : ∀ front : List ℕ, firstZero (front ++ [0]) ≤ front.length
  | [] => by simp [firstZero]
  | o :: os => by
      by_cases h : o = 0
      · simp [firstZero, h]
      · simpa [firstZero, h, Nat.succ_le_succ_iff] using firstZero_append_le os

/-- The scan reaches the sentinel exactly when no real offset is zero. -/
theorem firstZero_append_eq_iff :
    ∀ front : List ℕ, firstZero (front ++ [0]) = front.length ↔ ∀ o ∈ front, o ≠ 0
  | [] => by simp [firstZero]
  | o :: os => by
      by_cases h : o = 0
      · simp [firstZero, h]
      · simp [firstZero, h, firstZero_append_eq_iff os]

/-- Characterisation of `any_offset_equals_zero` on a sentinel-terminated
offset array: TRUE exactly when one of the real offsets is zero. -/
theorem any_offset_iff (front : List ℕ) (m : ℕ) (hm : front.length = m) :
    (any_offset_equals_zero m (front ++ [0]) = true ↔ ∃ o ∈ front, o = 0) := by
  subst hm
  unfold any_offset_equals_zero
  rw [decide_eq_true_iff, Ne, firstZero_append_eq_iff]
  push_neg
  rfl

/-- `update_offsets` only rewrites the slots paired with a table prime: any
tail beyond the table length (in particular the sentinel) is untouched. -/
theorem update_offsets_append :
    ∀ (ps os rest : List ℕ), ps.length = os.length →
      update_offsets ps (os ++ rest) = update_offsets ps os ++ rest
  | [], os, rest, _ => by simp [update_offsets]
  | p :: ps, [], rest, h => by simp at h
  | p :: ps, o :: os, rest, h => by
      simp only [List.cons_append, update_offsets, List.length_cons, List.append_eq] at *
      rw [update_offsets_append ps os rest (by omega)]

/-- Pointwise transformer for `update_offsets` along a `List.Forall₂`. -/
theorem update_offsets_forall₂ {R S : ℕ → ℕ → Prop}
    (h : ∀ p o, R p o → S p (if o + 1 = p then 0 else o + 1)) :
    ∀ {ps os : List ℕ}, List.Forall₂ R ps os → List.Forall₂ S ps (update_offsets ps os)
  | _, _, List.Forall₂.nil => List.Forall₂.nil
  | p :: _, o :: _, List.Forall₂.cons hh ht =>
      List.Forall₂.cons (h p o hh) (update_offsets_forall₂ h ht)

/-- Main loop lemma for `next_test`: if after `t` further increments every
offset is nonzero, then fuel `t` suffices, the loop answers `some`, and the
final state still satisfies the wheel invariant with all offsets nonzero. -/
theorem next_test_run :
    ∀ (t n : ℕ) (primes front : List ℕ),
      wheelInv n primes front →
      List.Forall₂ (fun p o => (o + t) % p ≠ 0) primes front →
      ∃ k front2, next_test t n primes (front ++ [0]) = some (n + 2 * k, front2 ++ [0]) ∧
        wheelInv (n + 2 * k) primes front2 ∧ ∀ o ∈ front2, o ≠ 0 := by
  intro t
  induction t with
  | zero =>
      intro n primes front hinv hsh
      have hnz : ∀ o ∈ front, o ≠ 0 := by
        intro o ho
        rcases forall₂_forall_right (hsh.mp (fun p o h1 h2 => And.intro h1 h2) hinv) o ho
          with ⟨p, _, hpo, ⟨hlt, _⟩⟩
        intro h0
        rw [h0] at hpo
        simp at hpo
      have hany : any_offset_equals_zero primes.length (front ++ [0]) = false := by
        rw [Bool.eq_false_iff, Ne, any_offset_iff front primes.length hinv.length_eq.symm]
        push_neg
        exact hnz
      refine ⟨0, front, ?_, by simpa using hinv, hnz⟩
      simp [next_test, hany]
  | succ t ih =>
      intro n primes front hinv hsh
      by_cases hz : ∃ o ∈ front, o = 0
      · have hany : any_offset_equals_zero primes.length (front ++ [0]) = true :=
          (any_offset_iff front primes.length hinv.length_eq.symm).mpr hz
        have hlen : primes.length = front.length := hinv.length_eq
        have hstep : next_test (t + 1) n primes (front ++ [0]) =
            next_test t (n + 2) primes (update_offsets primes front ++ [0]) := by
          rw [← update_offsets_append primes front [0] hlen]
          simp [next_test, hany]
        have hinv' : wheelInv (n + 2) primes (update_offsets primes front) :=
          update_offsets_inv n primes front hinv
        have hsh' : List.Forall₂ (fun p o => (o + t) % p ≠ 0) primes
            (update_offsets primes front) := by
          refine update_offsets_forall₂ ?_ (hsh.mp (fun p o h1 h2 => And.intro h2 h1) hinv)
          rintro p o ⟨⟨hlt, _⟩, hpo⟩
          by_cases he : o + 1 = p
          · rw [if_pos he]
            intro hc
            apply hpo
            have h1 : o + (t + 1) = p + t := by omega
            rw [h1, Nat.add_mod_left]
            simpa using hc
          · rw [if_neg he]
            intro hc
            apply hpo
            rw [show o + (t + 1) = o + 1 + t from by omega]
            exact hc
        rcases ih (n + 2) primes (update_offsets primes front) hinv' hsh' with
          ⟨k, front2, heq, hinv2, hnz2⟩
        have hkk : n + 2 + 2 * k = n + 2 * (k + 1) := by omega
        refine ⟨k + 1, front2, ?_, ?_, hnz2⟩
        · rw [hstep, heq, hkk]
        · rwa [hkk] at hinv2
      · have hany : any_offset_equals_zero primes.length (front ++ [0]) = false := by
          rw [Bool.eq_false_iff, Ne, any_offset_iff front primes.length hinv.length_eq.symm]
          exact hz
        push_neg at hz
        refine ⟨0, front, ?_, by simpa using hinv, hz⟩
        simp [next_test, hany]

/-- Existence of a shift after which no offset hits zero: for a table of
pairwise distinct primes there is always a number of `+2` steps landing the
whole offset vector away from zero (the advance loop can terminate). -/
theorem exists_good_shift :
    ∀ (ps os : List ℕ), (∀ p ∈ ps, p.Prime) → ps.Pairwise (· ≠ ·) →
      ps.length = os.length →
      ∃ t, List.Forall₂ (fun p o => (o + t) % p ≠ 0) ps os
  | [], [], _, _, _ => ⟨0, List.Forall₂.nil⟩
  | [], _ :: _, _, _, h => by simp at h
  | _ :: _, [], _, _, h => by simp at h
  | p :: ps, o :: os, hpr, hpw, hlen => by
      obtain ⟨t₀, h₀⟩ := exists_good_shift ps os (fun q hq => hpr q (by simp [hq]))
        (List.pairwise_cons.mp hpw).2 (by simpa using hlen)
      have hp : p.Prime := hpr p (by simp)
      have hpN : ¬ p ∣ ps.prod := by
        intro hd
        rcases hp.prime.dvd_prod_iff.mp hd with ⟨q, hq, hpq⟩
        exact absurd ((Nat.prime_dvd_prime_iff_eq hp (hpr q (by simp [hq]))).mp hpq)
          ((List.pairwise_cons.mp hpw).1 q hq)
      by_cases hbad : (o + t₀) % p = 0
      · refine ⟨t₀ + ps.prod, List.Forall₂.cons ?_ ?_⟩
        · intro hc
          apply hpN
          have hd1 : p ∣ o + t₀ := Nat.dvd_of_mod_eq_zero hbad
          have hd2 : p ∣ o + t₀ + ps.prod := Nat.dvd_of_mod_eq_zero
            (by rw [← Nat.add_assoc] at hc; exact hc)
          simpa using Nat.dvd_sub' hd2 hd1
        · refine forall₂_imp_mem ?_ h₀
          intro q o' hq hne hc
          apply hne
          obtain ⟨c, hc'⟩ := List.dvd_prod hq
          rw [hc', show o' + (t₀ + q * c) = o' + t₀ + q * c from by omega,
            Nat.add_mul_mod_self_left] at hc
          exact hc
      · exact ⟨t₀, List.Forall₂.cons hbad h₀⟩

/-! ## Lemmas about the candidate generator -/

/-- Folding the decimal digits of a run of zeros multiplies the accumulator
by the corresponding power of ten. -/
theorem digitsToNat_replicate_zero :
    ∀ k acc : ℕ, List.foldl (fun acc d => acc * 10 + d) acc (List.replicate k 0) = acc * 10 ^ k
  | 0, acc => by simp
  | k + 1, acc => by
      rw [List.replicate_succ, List.foldl_cons, digitsToNat_replicate_zero k]
      ring

/-- Value of the first string of `gen_start`: 45 followed by `d - 2` zeros. -/
theorem gen_start_modulus_eq (d : ℕ) : gen_start_modulus d = 45 * 10 ^ (d - 2) := by
  unfold gen_start_modulus digitsToNat
  rw [List.foldl_cons, List.foldl_cons, digitsToNat_replicate_zero]

/-- Value of the second string of `gen_start`: 1, 0, then `d - 2` zeros. -/
theorem gen_start_base_eq (d : ℕ) : gen_start_base d = 10 * 10 ^ (d - 2) := by
  unfold gen_start_base digitsToNat
  rw [List.foldl_cons, List.foldl_cons, digitsToNat_replicate_zero]

/-! ## Lemmas about the Miller-Rabin tester -/

/-- Correctness of the halving loop: for positive `m` and enough fuel the
result is a decomposition `m = 2^s * d` with `d` odd. -/
theorem factorTwosGo_spec :
    ∀ (fuel m : ℕ), 0 < m → m ≤ fuel →
      2 ^ (factorTwosGo fuel m).1 * (factorTwosGo fuel m).2 = m ∧
        (factorTwosGo fuel m).2 % 2 = 1
  | 0, m, hm, hf => by omega
  | fuel + 1, m, hm, hf => by
      by_cases he : m % 2 = 0
      · have ih := factorTwosGo_spec fuel (m / 2) (by omega) (by omega)
        have hrw : factorTwosGo (fuel + 1) m =
            ((factorTwosGo fuel (m / 2)).1 + 1, (factorTwosGo fuel (m / 2)).2) := by
          simp [factorTwosGo, he]
        rw [hrw]
        refine ⟨?_, ih.2⟩
        calc 2 ^ ((factorTwosGo fuel (m / 2)).1 + 1) * (factorTwosGo fuel (m / 2)).2
            = 2 * (2 ^ (factorTwosGo fuel (m / 2)).1 * (factorTwosGo fuel (m / 2)).2) := by
              rw [pow_succ]; ring
          _ = 2 * (m / 2) := by rw [ih.1]
          _ = m := by omega
      · have hrw : factorTwosGo (fuel + 1) m = (0, m) := by simp [factorTwosGo, he]
        rw [hrw]
        simpa using by omega

/-- Specification of the full `n - 1 = 2^s * d` decomposition. -/
theorem factorTwos_spec (m : ℕ) (hm : 0 < m) :
    2 ^ (factorTwos m).1 * (factorTwos m).2 = m ∧ (factorTwos m).2 % 2 = 1 :=
  factorTwosGo_spec m m hm le_rfl

/-- Casting a power-then-mod computation into `ZMod p`. -/
theorem natCast_pow_mod (p a k : ℕ) : ((a ^ k % p : ℕ) : ZMod p) = (a : ZMod p) ^ k := by
  rw [ZMod.natCast_mod, Nat.cast_pow]

/-- The natural number `p - 1` casts to `-1` in `ZMod p`. -/
theorem natCast_pred (p : ℕ) (hp : 0 < p) : ((p - 1 : ℕ) : ZMod p) = -1 := by
  rw [Nat.cast_sub (by omega : 1 ≤ p), ZMod.natCast_self, Nat.cast_one, zero_sub]

/-- Two naturals below `p` that agree in `ZMod p` are equal. -/
theorem nat_eq_of_cast_eq {p x y : ℕ} (hx : x < p) (hy : y < p)
    (h : (x : ZMod p) = (y : ZMod p)) : x = y := by
  have h2 := congrArg ZMod.val h
  rwa [ZMod.val_cast_of_lt hx, ZMod.val_cast_of_lt hy] at h2

/-- If the squaring chain `X` reaches `n - 1` within the available fuel and
never passes through 1 on the way, the squaring loop answers `true`. -/
theorem mrSquarLoop_reaches (n s : ℕ) (X : ℕ → ℕ)
    (hstep : ∀ u, X (u + 1) = X u * X u % n) :
    ∀ (fuel r u t : ℕ), u < t → t ≤ u + fuel → X t = n - 1 →
      (∀ v, u < v → v ≤ t → X v ≠ 1) →
      mrSquarLoop n s fuel r (X u) = true
  | 0, _, u, t, hut, htf, _, _ => by omega
  | fuel + 1, r, u, t, hut, htf, hXt, h1 => by
      have hxu : X u * X u % n = X (u + 1) := (hstep u).symm
      have hx1 : X (u + 1) ≠ 1 := h1 (u + 1) (by omega) (by omega)
      simp only [mrSquarLoop, hxu]
      by_cases hx2 : X (u + 1) = n - 1
      · rw [if_neg hx1, if_pos hx2]
      · have hut' : u + 1 < t := by
          rcases Nat.lt_or_ge (u + 1) t with h | h
          · exact h
          · have : u + 1 = t := by omega
            exact absurd (this ▸ hXt) hx2
        rw [if_neg hx1, if_neg hx2]
        exact mrSquarLoop_reaches n s X hstep fuel (r + 1) (u + 1) t hut' (by omega) hXt
          (fun v hv1 hv2 => h1 v (by omega) hv2)

/-- Core soundness of one Miller-Rabin round on a prime modulus: for prime
`p > 4` and any witness `a` with `0 < a < p`, the round passes. -/
theorem mrWitnessRound_prime (p : ℕ) (hp : p.Prime) (hodd : p % 2 = 1) (hp4 : 4 < p)
    (s d : ℕ) (hsd : 2 ^ s * d = p - 1) (hd : d % 2 = 1)
    (a : ℕ) (ha0 : 0 < a) (hap : a < p) :
    mrWitnessRound p s d a = true := by
  haveI : Fact p.Prime := ⟨hp⟩
  have hane : (a : ZMod p) ≠ 0 := by
    rw [Ne, ZMod.natCast_zmod_eq_zero_iff_dvd]
    exact fun hdvd => absurd (Nat.eq_zero_of_dvd_of_lt hdvd hap) (by omega)
  have hs1 : 1 ≤ s := by
    rcases Nat.eq_zero_or_pos s with rfl | h
    · simp only [pow_zero, one_mul] at hsd
      omega
    · exact h
  have hF : (a : ZMod p) ^ (2 ^ s * d) = 1 := by
    rw [hsd]
    exact ZMod.pow_card_sub_one_eq_one hane
  have hex : ∃ j, (a : ZMod p) ^ (2 ^ j * d) = 1 := ⟨s, hF⟩
  obtain ⟨J, hJ, hJmin⟩ :
      ∃ J, (a : ZMod p) ^ (2 ^ J * d) = 1 ∧
        ∀ j < J, (a : ZMod p) ^ (2 ^ j * d) ≠ 1 :=
    ⟨Nat.find hex, Nat.find_spec hex, fun j hj => Nat.find_min hex hj⟩
  have hJle : J ≤ s := by
    by_contra hc
    push_neg at hc
    exact hJmin s hc hF
  have castX : ∀ u, ((a ^ (2 ^ u * d) % p : ℕ) : ZMod p) = (a : ZMod p) ^ (2 ^ u * d) :=
    fun u => natCast_pow_mod p a (2 ^ u * d)
  have hXlt : ∀ u, a ^ (2 ^ u * d) % p < p := fun u => Nat.mod_lt _ (by omega)
  have hstep : ∀ u, a ^ (2 ^ (u + 1) * d) % p =
      a ^ (2 ^ u * d) % p * (a ^ (2 ^ u * d) % p) % p := by
    intro u
    rw [← Nat.mul_mod, ← pow_add]
    congr 1
    rw [pow_succ]
    ring
  have hX1 : ∀ u, u < J → a ^ (2 ^ u * d) % p ≠ 1 := by
    intro u hu h1
    exact hJmin u hu (by rw [← castX u, h1, Nat.cast_one])
  have hXd : a ^ d % p = a ^ (2 ^ 0 * d) % p := by simp
  rcases J with _ | j
  · -- the very first power is 1: the round passes at the initial test
    have hX0 : a ^ (2 ^ 0 * d) % p = 1 :=
      nat_eq_of_cast_eq (hXlt 0) (by omega) (by rw [castX 0, hJ, Nat.cast_one])
    simp only [mrWitnessRound, hXd]
    rw [if_pos (Or.inl hX0)]
  · have harith : 2 ^ j * d + 2 ^ j * d = 2 ^ (j + 1) * d := by
      rw [pow_succ]
      ring
    have hβ : (a : ZMod p) ^ (2 ^ j * d) = -1 := by
      have hsq : (a : ZMod p) ^ (2 ^ j * d) * (a : ZMod p) ^ (2 ^ j * d) = 1 := by
        rw [← pow_add, harith]
        exact hJ
      rcases mul_self_eq_one_iff.mp hsq with h1 | h1
      · exact absurd h1 (hJmin j (by omega))
      · exact h1
    have hXj : a ^ (2 ^ j * d) % p = p - 1 :=
      nat_eq_of_cast_eq (hXlt j) (by omega)
        (by rw [castX j, hβ, natCast_pred p (by omega)])
    rcases Nat.eq_zero_or_pos j with rfl | hj1
    · -- the first power is p - 1: the round passes at the initial test
      simp only [mrWitnessRound, hXd]
      rw [if_pos (Or.inr hXj)]
    · -- the chain reaches p - 1 strictly inside the squaring loop
      have hX0ne1 : a ^ (2 ^ 0 * d) % p ≠ 1 := hX1 0 (by omega)
      have hX0nep : a ^ (2 ^ 0 * d) % p ≠ p - 1 := by
        intro hc
        have hcast : (a : ZMod p) ^ (2 ^ 0 * d) = -1 := by
          rw [← castX 0, hc]
          exact natCast_pred p (by omega)
        have harith0 : 2 ^ 0 * d + 2 ^ 0 * d = 2 ^ 1 * d := by
          rw [pow_zero, pow_one, one_mul]
          exact (two_mul d).symm
        have h2d : (a : ZMod p) ^ (2 ^ 1 * d) = 1 := by
          rw [← harith0, pow_add, hcast]
          ring
        exact hJmin 1 (by omega) h2d
      have hloop := mrSquarLoop_reaches p s (fun u => a ^ (2 ^ u * d) % p) hstep
        (s - 1) 1 0 j hj1 (by omega) hXj (fun v hv1 hv2 => hX1 v (by omega))
      simp only [mrWitnessRound, hXd]
      rw [if_neg (fun hor => hor.elim hX0ne1 hX0nep)]
      exact hloop

/-! ## Lemmas about the offset-prime table generator -/

/-- Characterisation of the running table of `init_offsets`: it holds exactly
the primes in the interval `[3, n)`. -/
def foundPrimesBelow (found : List ℕ) (n : ℕ) : Prop :=
  ∀ p, p ∈ found ↔ (p.Prime ∧ 3 ≤ p ∧ p < n)

/-- Basic facts about `nextPrime`. -/
theorem nextPrime_le_mem (n : ℕ) : n ≤ nextPrime n ∧ (nextPrime n).Prime :=
  Nat.find_spec (Nat.exists_infinite_primes n)

/-- Minimality of `nextPrime`. -/
theorem nextPrime_min (n m : ℕ) (hm : n ≤ m) (hp : m.Prime) : nextPrime n ≤ m :=
  Nat.find_min' (Nat.exists_infinite_primes n) ⟨hm, hp⟩

/-- From an odd composite `n ≥ 3` the next prime is at least two away. -/
theorem nextPrime_ge_add_two (n : ℕ) (hn : ¬n.Prime) (hodd : n % 2 = 1) (h3 : 3 ≤ n) :
    n + 2 ≤ nextPrime n := by
  have hq := nextPrime_le_mem n
  rcases Nat.lt_or_ge (nextPrime n) (n + 2) with h | h
  · exfalso
    have hcase : nextPrime n = n ∨ nextPrime n = n + 1 := by omega
    rcases hcase with h' | h'
    · exact hn (h' ▸ hq.2)
    · have hev : Even (nextPrime n) := Nat.even_iff.mpr (by omega)
      have := (Nat.Prime.even_iff hq.2).mp hev
      omega
  · exact h

/-- Skipping an odd composite does not change the next prime. -/
theorem nextPrime_step (n : ℕ) (hn : ¬n.Prime) (hodd : n % 2 = 1) (h3 : 3 ≤ n) :
    nextPrime (n + 2) = nextPrime n := by
  have hq := nextPrime_le_mem n
  apply le_antisymm
  · exact nextPrime_min (n + 2) (nextPrime n) (nextPrime_ge_add_two n hn hodd h3) hq.2
  · exact nextPrime_min n (nextPrime (n + 2))
      (le_trans (by omega) (nextPrime_le_mem (n + 2)).1) (nextPrime_le_mem (n + 2)).2

/-- Trial division against all smaller primes decides primality of an odd
candidate. -/
theorem trial_is_prime_iff (found : List ℕ) (n : ℕ) (hodd : n % 2 = 1) (h3 : 3 ≤ n)
    (hch : foundPrimesBelow found n) :
    (trial_is_prime found n = true ↔ n.Prime) := by
  unfold trial_is_prime
  rw [List.all_eq_true]
  constructor
  · intro hall
    by_contra hnp
    obtain ⟨q, hq, hqd⟩ := Nat.exists_prime_and_dvd (by omega : n ≠ 1)
    have hqn : q < n := by
      rcases lt_or_eq_of_le (Nat.le_of_dvd (by omega) hqd) with h | h
      · exact h
      · exact absurd (h ▸ hq) hnp
    have hq2 : q ≠ 2 := by
      rintro rfl
      have := Nat.mod_eq_zero_of_dvd hqd
      omega
    have h2le := hq.two_le
    have hmem : q ∈ found := (hch q).mpr ⟨hq, by omega, hqn⟩
    have hq0 := hall q hmem
    rw [decide_eq_true_iff] at hq0
    exact hq0 (Nat.mod_eq_zero_of_dvd hqd)
  · intro hnp q hq
    rw [decide_eq_true_iff]
    obtain ⟨hqp, hq3, hqn⟩ := (hch q).mp hq
    intro h0
    rcases hnp.eq_one_or_self_of_dvd q (Nat.dvd_of_mod_eq_zero h0) with h | h
    · omega
    · omega

/-- Appending a freshly found prime extends the table characterisation past
the prime and the following even number. -/
theorem foundPrimesBelow_step_prime (found : List ℕ) (n : ℕ) (hn : n.Prime)
    (hodd : n % 2 = 1) (h3 : 3 ≤ n) (hch : foundPrimesBelow found n) :
    foundPrimesBelow (found ++ [n]) (n + 2) := by
  intro p
  rw [List.mem_append, List.mem_singleton, hch p]
  constructor
  · rintro (⟨h1, h2, h3'⟩ | rfl)
    · exact ⟨h1, h2, by omega⟩
    · exact ⟨hn, h3, by omega⟩
  · rintro ⟨h1, h2, h3'⟩
    rcases Nat.lt_or_ge p n with h | h
    · exact Or.inl ⟨h1, h2, h⟩
    · right
      rcases Nat.eq_or_lt_of_le h with h' | h'
      · exact h'.symm
      · exfalso
        have hev : Even p := Nat.even_iff.mpr (by omega)
        have := (Nat.Prime.even_iff h1).mp hev
        omega

/-- Skipping an odd composite keeps the table characterisation valid. -/
theorem foundPrimesBelow_step_comp (found : List ℕ) (n : ℕ) (hn : ¬n.Prime)
    (hodd : n % 2 = 1) (h3 : 3 ≤ n) (hch : foundPrimesBelow found n) :
    foundPrimesBelow found (n + 2) := by
  intro p
  rw [hch p]
  constructor
  · rintro ⟨h1, h2, h3'⟩
    exact ⟨h1, h2, by omega⟩
  · rintro ⟨h1, h2, h3'⟩
    refine ⟨h1, h2, ?_⟩
    rcases Nat.lt_or_ge p n with h | h
    · exact h
    · exfalso
      rcases Nat.eq_or_lt_of_le h with h' | h'
      · exact hn (h' ▸ h1)
      · have hev : Even p := Nat.even_iff.mpr (by omega)
        have := (Nat.Prime.even_iff h1).mp hev
        omega

/-- Unfolding of one loop iteration of `init_offsets` on a composite. -/
theorem go_unfold_comp (fuel count n : ℕ) (found : List ℕ)
    (htr : trial_is_prime found n = false) (hlen : found.length < count) :
    init_offsets_go (fuel + 1) found n count = init_offsets_go fuel found (n + 2) count := by
  simp [init_offsets_go, hlen, htr]

/-- One step of the loop when the scan sits on a prime, assuming the
induction hypothesis for the remaining `k` primes. -/
theorem go_step_prime (k n : ℕ) (found : List ℕ) (hodd : n % 2 = 1) (h3 : 3 ≤ n)
    (hch : foundPrimesBelow found n) (hnp : n.Prime)
    (ihk : ∀ (n' : ℕ) (found' : List ℕ), n' % 2 = 1 → 3 ≤ n' →
      foundPrimesBelow found' n' →
      ∃ fuel, init_offsets_go fuel found' n' (found'.length + k) =
        found' ++ firstOddPrimesFrom k n') :
    ∃ fuel, init_offsets_go fuel found n (found.length + (k + 1)) =
      found ++ firstOddPrimesFrom (k + 1) n := by
  have hq := nextPrime_le_mem n
  have hnn : nextPrime n = n := le_antisymm (nextPrime_min n n le_rfl hnp) hq.1
  have htr : trial_is_prime found n = true := (trial_is_prime_iff found n hodd h3 hch).mpr hnp
  obtain ⟨fuel, hfuel⟩ := ihk (n + 2) (found ++ [n]) (by omega) (by omega)
    (foundPrimesBelow_step_prime found n hnp hodd h3 hch)
  refine ⟨fuel + 1, ?_⟩
  have hcnt : found.length < found.length + (k + 1) := by omega
  have hunf : init_offsets_go (fuel + 1) found n (found.length + (k + 1)) =
      init_offsets_go fuel (found ++ [n]) (n + 2) (found.length + (k + 1)) := by
    simp [init_offsets_go, hcnt, htr]
  rw [hunf]
  have hlen2 : found.length + (k + 1) = (found ++ [n]).length + k := by
    rw [List.length_append, List.length_singleton]
    omega
  rw [hlen2, hfuel, List.append_assoc]
  congr 1
  rw [firstOddPrimesFrom, hnn]
  rfl

/-- Simulation of the `init_offsets` loop against the specification list: in
a state described by `foundPrimesBelow`, enough fuel produces exactly the
next `k` odd primes. -/
theorem init_offsets_go_spec (k : ℕ) :
    ∀ (n : ℕ) (found : List ℕ), n % 2 = 1 → 3 ≤ n →
      foundPrimesBelow found n →
      ∃ fuel, init_offsets_go fuel found n (found.length + k) =
        found ++ firstOddPrimesFrom k n := by
  induction k with
  | zero =>
      intro n found hodd h3 hch
      exact ⟨0, by simp [init_offsets_go, firstOddPrimesFrom]⟩
  | succ k ihk =>
      suffices h : ∀ (δ n : ℕ) (found : List ℕ), nextPrime n - n ≤ δ → n % 2 = 1 → 3 ≤ n →
          foundPrimesBelow found n →
          ∃ fuel, init_offsets_go fuel found n (found.length + (k + 1)) =
            found ++ firstOddPrimesFrom (k + 1) n by
        intro n found hodd h3 hch
        exact h (nextPrime n - n) n found le_rfl hodd h3 hch
      intro δ
      induction δ with
      | zero =>
          intro n found hbd hodd h3 hch
          have hq := nextPrime_le_mem n
          have hnp : n.Prime := by
            have hnn : nextPrime n = n := by omega
            exact hnn ▸ hq.2
          exact go_step_prime k n found hodd h3 hch hnp ihk
      | succ δ ihδ =>
          intro n found hbd hodd h3 hch
          by_cases hnp : n.Prime
          · exact go_step_prime k n found hodd h3 hch hnp ihk
          · have htr : trial_is_prime found n = false := by
              rw [Bool.eq_false_iff, Ne, trial_is_prime_iff found n hodd h3 hch]
              exact hnp
            have hnpn : nextPrime (n + 2) = nextPrime n := nextPrime_step n hnp hodd h3
            have hge := nextPrime_ge_add_two n hnp hodd h3
            obtain ⟨fuel, hfuel⟩ := ihδ (n + 2) found (by omega) (by omega) (by omega)
              (foundPrimesBelow_step_comp found n hnp hodd h3 hch)
            refine ⟨fuel + 1, ?_⟩
            rw [go_unfold_comp fuel _ n found htr (by omega), hfuel]
            congr 1
            rw [firstOddPrimesFrom, firstOddPrimesFrom, hnpn]

/-- Shape and membership facts about the specification list. -/
theorem firstOddPrimesFrom_facts :
    ∀ (k n : ℕ), 3 ≤ n →
      (firstOddPrimesFrom k n).length = k ∧
      ∀ p ∈ firstOddPrimesFrom k n, p.Prime ∧ n ≤ p ∧ 3 ≤ p ∧ Odd p
  | 0, n, _ => by simp [firstOddPrimesFrom]
  | k + 1, n, h3 => by
      have hq := nextPrime_le_mem n
      have ih := firstOddPrimesFrom_facts k (nextPrime n + 2) (by omega)
      rw [firstOddPrimesFrom]
      constructor
      · simp [ih.1]
      · intro p hp
        rcases List.mem_cons.mp hp with rfl | hp'
        · exact ⟨hq.2, hq.1, by omega, hq.2.odd_of_ne_two (by omega)⟩
        · obtain ⟨h1, h2, h3', h4⟩ := ih.2 p hp'
          exact ⟨h1, by omega, h3', h4⟩

/-- The specification list is strictly increasing. -/
theorem firstOddPrimesFrom_sorted :
    ∀ (k n : ℕ), 3 ≤ n → List.Sorted (· < ·) (firstOddPrimesFrom k n)
  | 0, _, _ => by simp [firstOddPrimesFrom]
  | k + 1, n, h3 => by
      rw [firstOddPrimesFrom, List.sorted_cons]
      have hq := nextPrime_le_mem n
      refine ⟨?_, firstOddPrimesFrom_sorted k (nextPrime n + 2) (by omega)⟩
      intro b hb
      have := (firstOddPrimesFrom_facts k (nextPrime n + 2) (by omega)).2 b hb
      omega

/-- A strictly increasing list of primes is pairwise coprime. -/
theorem sorted_primes_pairwise_coprime :
    ∀ l : List ℕ, (∀ p ∈ l, p.Prime) → List.Sorted (· < ·) l →
      List.Pairwise Nat.Coprime l
  | [], _, _ => List.Pairwise.nil
  | a :: l, hp, hs => by
      rw [List.sorted_cons] at hs
      refine List.Pairwise.cons ?_
        (sorted_primes_pairwise_coprime l (fun q hq => hp q (by simp [hq])) hs.2)
      intro b hb
      refine (Nat.coprime_primes (hp a (by simp)) (hp b (by simp [hb]))).mpr ?_
      have := hs.1 b hb
      omega

/-! ## Claim theorems -/

/-- Claim C1: for every odd candidate `n` and a table of odd primes,
`offset_init` establishes the wheel invariant, one `update_offsets` call in
lock-step with one `+2` increment of the candidate preserves it, and the
invariant forces `0 ≤ offsets[i] < Pᵢ` together with `offsets[i] = 0` exactly
when `Pᵢ` divides the current candidate. -/
theorem claim_C1_offset_invariant (n : ℕ) (hn : Odd n) (primes : List ℕ)
    (hp : ∀ p ∈ primes, p.Prime ∧ Odd p) :
    wheelInv n primes (offset_init n primes) ∧
    (∀ offsets, wheelInv n primes offsets →
      wheelInv (n + 2) primes (update_offsets primes offsets)) ∧
    (∀ offsets, wheelInv n primes offsets →
      List.Forall₂ (fun p o => o < p ∧ (o = 0 ↔ p ∣ n)) primes offsets) := by
  refine ⟨offset_init_inv n primes (fun p h => (hp p h).2), ?_, ?_⟩
  · exact fun offsets h => update_offsets_inv n primes offsets h
  · intro offsets h
    refine forall₂_imp_mem ?_ h
    intro p o hpm hinv
    exact ⟨hinv.1, offsetInv_zero_iff n p o (hp p hpm).2 hinv⟩

/-- Witness for C1 at the concrete candidate 7 and table [3, 5]. -/
theorem claim_C1_offset_invariant_witness :
    Odd 7 ∧ (∀ p ∈ [3, 5], Nat.Prime p ∧ Odd p) ∧
      wheelInv 7 [3, 5] (offset_init 7 [3, 5]) :=
  ⟨by decide, by decide, (claim_C1_offset_invariant 7 (by decide) [3, 5] (by decide)).1⟩

/-- Claim C2: for every odd prime `n > 4` and every sequence of values drawn
from the random source (each raw draw below `n - 4`, giving a witness in
`[2, n - 3]`), `miller_rabin` returns TRUE; moreover every witness in the
range `[2, n - 2]` named by the claim passes its round, so a prime is never
declared composite. -/
theorem claim_C2_miller_rabin_prime (p : ℕ) (hp : p.Prime) (hp4 : 4 < p)
    (draws : List ℕ) (hdr : ∀ r ∈ draws, r < p - 4) :
    miller_rabin p draws = true ∧
    ∀ a, 2 ≤ a → a ≤ p - 2 →
      mrWitnessRound p (factorTwos (p - 1)).1 (factorTwos (p - 1)).2 a = true := by
  have hodd : p % 2 = 1 := Nat.odd_iff.mp (hp.odd_of_ne_two (by omega))
  obtain ⟨hsd, hd⟩ := factorTwos_spec (p - 1) (by omega)
  have hround : ∀ a, 0 < a → a < p →
      mrWitnessRound p (factorTwos (p - 1)).1 (factorTwos (p - 1)).2 a = true :=
    fun a h1 h2 => mrWitnessRound_prime p hp hodd hp4 _ _ hsd hd a h1 h2
  constructor
  · rw [miller_rabin, List.all_eq_true]
    intro r hr
    have := hdr r hr
    exact hround (r + 2) (by omega) (by omega)
  · intro a h1 h2
    exact hround a (by omega) (by omega)

/-- Witness for C2 at the prime 7 with three rounds of draws. -/
theorem claim_C2_miller_rabin_prime_witness :
    Nat.Prime 7 ∧ (∀ r ∈ [0, 1, 2], r < 7 - 4) ∧
      (miller_rabin 7 [0, 1, 2] = true ∧
        ∀ a, 2 ≤ a → a ≤ 7 - 2 →
          mrWitnessRound 7 (factorTwos (7 - 1)).1 (factorTwos (7 - 1)).2 a = true) :=
  ⟨by decide, by decide,
    claim_C2_miller_rabin_prime 7 (by decide) (by decide) [0, 1, 2] (by decide)⟩

/-- Claim C3: from an odd candidate whose offset vector satisfies the wheel
invariant, `next_test` terminates (some fuel reaches the exit), leaves every
real offset nonzero, and the final candidate is odd, at least the input,
differs from it by an even amount, and is divisible by no table prime. -/
theorem claim_C3_next_test_advance (n : ℕ) (hn : Odd n) (primes front : List ℕ)
    (hp : ∀ p ∈ primes, p.Prime ∧ Odd p) (hnd : primes.Pairwise (· ≠ ·))
    (hinv : wheelInv n primes front) :
    ∃ fuel n2 front2,
      next_test fuel n primes (front ++ [0]) = some (n2, front2 ++ [0]) ∧
      (∀ o ∈ front2, o ≠ 0) ∧ Odd n2 ∧ n ≤ n2 ∧ 2 ∣ n2 - n ∧
      ∀ p ∈ primes, ¬p ∣ n2 := by
  obtain ⟨t, hsh⟩ :=
    exists_good_shift primes front (fun p hp' => (hp p hp').1) hnd hinv.length_eq
  obtain ⟨k, front2, heq, hinv2, hnz⟩ := next_test_run t n primes front hinv hsh
  refine ⟨t, n + 2 * k, front2, heq, hnz, ?_, by omega, ⟨k, by omega⟩, ?_⟩
  · obtain ⟨j, hj⟩ := hn
    exact ⟨j + k, by omega⟩
  · intro p hpmem hdvd
    obtain ⟨o, ho, hoinv⟩ := forall₂_forall_left hinv2 p hpmem
    exact hnz o ho ((offsetInv_zero_iff (n + 2 * k) p o (hp p hpmem).2 hoinv).mpr hdvd)

/-- Witness for C3 at candidate 7 with table [3, 5] and its offset vector. -/
theorem claim_C3_next_test_advance_witness :
    Odd 7 ∧ wheelInv 7 [3, 5] [2, 1] ∧
      (∃ fuel n2 front2,
        next_test fuel 7 [3, 5] ([2, 1] ++ [0]) = some (n2, front2 ++ [0]) ∧
        (∀ o ∈ front2, o ≠ 0) ∧ Odd n2 ∧ 7 ≤ n2 ∧ 2 ∣ n2 - 7 ∧
        ∀ p ∈ [3, 5], ¬p ∣ n2) :=
  ⟨by decide,
    List.Forall₂.cons ⟨by decide, by decide⟩
      (List.Forall₂.cons ⟨by decide, by decide⟩ List.Forall₂.nil),
    claim_C3_next_test_advance 7 (by decide) [3, 5] [2, 1] (by decide) (by decide)
      (List.Forall₂.cons ⟨by decide, by decide⟩
        (List.Forall₂.cons ⟨by decide, by decide⟩ List.Forall₂.nil))⟩

/-- Claim C4: for every digit count `d ≥ 2` and every raw draw below
`45·10^(d-2)`, `gen_start` yields an odd integer with exactly `d` decimal
digits, and every odd `d`-digit integer arises from exactly one draw. -/
theorem claim_C4_gen_start_uniform (d r : ℕ) (hd : 2 ≤ d) (hr : r < gen_start_modulus d) :
    (Odd (gen_start d r) ∧ 10 ^ (d - 1) ≤ gen_start d r ∧ gen_start d r < 10 ^ d) ∧
    ∀ m, Odd m → 10 ^ (d - 1) ≤ m → m < 10 ^ d →
      ∃! r', r' < gen_start_modulus d ∧ gen_start d r' = m := by
  have hB : 1 ≤ 10 ^ (d - 2) := Nat.one_le_pow _ _ (by omega)
  have hd1 : 10 ^ (d - 1) = 10 * 10 ^ (d - 2) := by
    rw [show d - 1 = (d - 2) + 1 from by omega, pow_succ]
    ring
  have hdd : 10 ^ d = 100 * 10 ^ (d - 2) := by
    conv_lhs => rw [show d = (d - 2) + 2 from by omega]
    rw [pow_add]
    ring
  rw [gen_start_modulus_eq] at hr
  simp only [gen_start, gen_start_base_eq, gen_start_modulus_eq, hd1, hdd]
  generalize 10 ^ (d - 2) = B at hr hB ⊢
  constructor
  · exact ⟨Nat.odd_iff.mpr (by omega), by omega, by omega⟩
  · intro m hm h1 h2
    rw [Nat.odd_iff] at hm
    refine ⟨(m - 10 * B - 1) / 2, ⟨by omega, by omega⟩, ?_⟩
    rintro y ⟨hy1, hy2⟩
    omega

/-- Witness for C4 at digit count 2 and draw 0. -/
theorem claim_C4_gen_start_uniform_witness :
    2 ≤ 2 ∧ 0 < gen_start_modulus 2 ∧
      ((Odd (gen_start 2 0) ∧ 10 ^ (2 - 1) ≤ gen_start 2 0 ∧ gen_start 2 0 < 10 ^ 2) ∧
        ∀ m, Odd m → 10 ^ (2 - 1) ≤ m → m < 10 ^ 2 →
          ∃! r', r' < gen_start_modulus 2 ∧ gen_start 2 r' = m) :=
  ⟨by decide, by decide, claim_C4_gen_start_uniform 2 0 (by decide) (by decide)⟩

/-- Claim C5: with enough fuel, `init_offsets` fills the table with exactly
the first `count` odd primes (3, 5, 7, 11, ...) in strictly increasing
order, so all entries are prime, odd and pairwise coprime. -/
theorem claim_C5_init_offsets_table (count : ℕ) :
    ∃ fuel, init_offsets fuel count = firstOddPrimes count ∧
      (firstOddPrimes count).length = count ∧
      List.Sorted (· < ·) (firstOddPrimes count) ∧
      (∀ p ∈ firstOddPrimes count, p.Prime ∧ Odd p) ∧
      List.Pairwise Nat.Coprime (firstOddPrimes count) := by
  have hch : foundPrimesBelow [] 3 := by
    intro p
    simp only [List.not_mem_nil, false_iff]
    rintro ⟨_, h1, h2⟩
    omega
  obtain ⟨fuel, hfuel⟩ := init_offsets_go_spec count 3 [] (by decide) (by decide) hch
  have hfacts := firstOddPrimesFrom_facts count 3 (by omega)
  have hsorted := firstOddPrimesFrom_sorted count 3 (by omega)
  simp only [firstOddPrimes]
  refine ⟨fuel, ?_, hfacts.1, hsorted, ?_, ?_⟩
  · simpa [init_offsets] using hfuel
  · intro p hp
    obtain ⟨h1, _, _, h4⟩ := hfacts.2 p hp
    exact ⟨h1, h4⟩
  · exact sorted_primes_pairwise_coprime _ (fun p hp => (hfacts.2 p hp).1) hsorted

/-- Counterexample to claim C6 as stated: at candidate 7 and table prime 3,
`offset_init` computes the offset 2, but `7 + 2·2 = 11` is not divisible by
3 (one increment, not two, reaches the multiple 9). -/
theorem claim_C6_counterexample :
    offset_init 7 [3] = [2] ∧ (7 + 2 * 2) % 3 ≠ 0 ∧ (7 + 2 * 1) % 3 = 0 := by
  decide

/-- Amended claim C6: the offset computed by `offset_init` satisfies
`0 ≤ Oᵢ < Pᵢ` and `2·Oᵢ ≡ n (mod Pᵢ)` — it counts the `+2` steps by which
the candidate has moved past a multiple — so the number of increments-by-2
until the candidate becomes divisible by `Pᵢ` is `(Pᵢ - Oᵢ) mod Pᵢ`, and in
particular `n + 2·(Pᵢ - Oᵢ) ≡ 0 (mod Pᵢ)`. -/
theorem claim_C6_offset_init_amended (n : ℕ) (primes : List ℕ)
    (hp : ∀ p ∈ primes, Odd p) :
    List.Forall₂
      (fun p o => o < p ∧ 2 * o % p = n % p ∧ (n + 2 * (p - o)) % p = 0)
      primes (offset_init n primes) := by
  refine forall₂_imp_mem ?_ (offset_init_inv n primes hp)
  intro p o hpm hinv
  obtain ⟨hlt, hcong⟩ := hinv
  refine ⟨hlt, hcong, ?_⟩
  have h1 : (n + 2 * (p - o)) % p = (2 * o + 2 * (p - o)) % p := by
    conv_lhs => rw [Nat.add_mod, ← hcong, ← Nat.add_mod]
  rw [h1, show 2 * o + 2 * (p - o) = 2 * p from by omega]
  exact Nat.mul_mod_left 2 p

/-- Witness for the amended C6 at candidate 7 and table [3, 5]. -/
theorem claim_C6_offset_init_amended_witness :
    (∀ p ∈ [3, 5], Odd p) ∧
      List.Forall₂
        (fun p o => o < p ∧ 2 * o % p = 7 % p ∧ (7 + 2 * (p - o)) % p = 0)
        [3, 5] (offset_init 7 [3, 5]) :=
  ⟨by decide, claim_C6_offset_init_amended 7 [3, 5] (by decide)⟩

/-- Counterexample to claim C7 as stated: the program rejects the digit
counts 2 and 9 (the reference check is `num_digits < 10`), so the claimed
floor of 2 does not hold; 10 is accepted. -/
theorem claim_C7_counterexample :
    num_digits_rejected 2 = true ∧ num_digits_rejected 9 = true ∧
      num_digits_rejected 10 = false := by
  decide

/-- Amended claim C7: the digit-count validation of `main` accepts exactly
the values `≥ 10` and rejects (before any search starts, since argument
parsing precedes the sieve and thread setup in `main`) every smaller
value. -/
theorem claim_C7_digit_floor_amended (d : ℤ) :
    num_digits_rejected d = false ↔ 10 ≤ d := by
  simp only [num_digits_rejected, invalid_int, Option.isSome_none, Bool.or_false,
    decide_eq_false_iff_not, not_lt]

/-- Witness for the amended C7 at the boundary value 10 and the default 300. -/
theorem claim_C7_digit_floor_amended_witness :
    num_digits_rejected 10 = false ∧ num_digits_rejected 300 = false :=
  ⟨(claim_C7_digit_floor_amended 10).mpr (by decide),
    (claim_C7_digit_floor_amended 300).mpr (by decide)⟩

/-- Claim C8: when the output file cannot be opened for append after a prime
was found, the worker makes the whole process exit with the failure status 1
instead of dropping the result; on success the file is only extended, so a
previously appended prime is never retracted. -/
theorem claim_C8_output_failure (file : List ℕ) (prime : ℕ) :
    write_found_prime false file prime = ProcResult.exited 1 ∧
    write_found_prime true file prime = ProcResult.ok (file ++ [prime]) ∧
    ∀ q ∈ file, q ∈ file ++ [prime] := by
  refine ⟨rfl, rfl, ?_⟩
  intro q hq
  exact List.mem_append.mpr (Or.inl hq)

/-- Witness for C8 with one line already in the file. -/
theorem claim_C8_output_failure_witness :
    write_found_prime false [5] 7 = ProcResult.exited 1 ∧
      write_found_prime true [5] 7 = ProcResult.ok ([5] ++ [7]) ∧
      (5 : ℕ) ∈ [5] ++ [7] :=
  ⟨(claim_C8_output_failure [5] 7).1, (claim_C8_output_failure [5] 7).2.1,
    (claim_C8_output_failure [5] 7).2.2 5 (by decide)⟩

/-- Claim C9: on a sentinel-terminated offset array (length
`num_offsets + 1`, last entry 0, which `update_offsets` leaves in place),
the scan of `any_offset_equals_zero` stops at or before the sentinel — it
reads `firstZero + 1 ≤ num_offsets + 1` entries — and answers TRUE exactly
when some real offset (index below `num_offsets`) is zero. -/
theorem claim_C9_sentinel_scan (m : ℕ) (front primes : List ℕ)
    (hf : front.length = m) (hp : primes.length = m) :
    firstZero (front ++ [0]) ≤ m ∧
    (any_offset_equals_zero m (front ++ [0]) = true ↔ ∃ o ∈ front, o = 0) ∧
    update_offsets primes (front ++ [0]) = update_offsets primes front ++ [0] := by
  refine ⟨hf ▸ firstZero_append_le front, any_offset_iff front m hf, ?_⟩
  exact update_offsets_append primes front [0] (by omega)

/-- Witness for C9 on a three-entry offset array with one zero. -/
theorem claim_C9_sentinel_scan_witness :
    ([1, 0, 4] : List ℕ).length = 3 ∧ ([3, 5, 7] : List ℕ).length = 3 ∧
      (firstZero ([1, 0, 4] ++ [0]) ≤ 3 ∧
        (any_offset_equals_zero 3 ([1, 0, 4] ++ [0]) = true ↔ ∃ o ∈ [1, 0, 4], o = 0) ∧
        update_offsets [3, 5, 7] ([1, 0, 4] ++ [0]) =
          update_offsets [3, 5, 7] [1, 0, 4] ++ [0]) :=
  ⟨by decide, by decide,
    claim_C9_sentinel_scan 3 [1, 0, 4] [3, 5, 7] (by decide) (by decide)⟩

/-- Claim C10: `invalid_int` is NULL throughout, so every option check
coincides with its pure range check — the "must be a valid integer"
rejection is unreachable — and consequently a numeric argument with trailing
garbage is accepted as its numeric prefix while a wholly non-numeric
argument parses as 0 and is rejected only when 0 is out of range (the seed
option accepts it). -/
theorem claim_C10_invalid_int_unreachable :
    invalid_int = none ∧
    (∀ s, check_num_offsets s = check_num_offsets_range s) ∧
    (∀ s, check_num_primes s = check_num_primes_range s) ∧
    (∀ s, check_num_digits s = check_num_digits_range s) ∧
    (∀ s, check_seed s = check_seed_range s) ∧
    (∀ s, check_precision s = check_precision_range s) ∧
    strtol10 ['1', '2', 'a', 'b', 'c'] = 12 ∧
    check_num_offsets ['1', '2', 'a', 'b', 'c'] = some 12 ∧
    strtol10 ['a', 'b', 'c'] = 0 ∧
    check_num_offsets ['a', 'b', 'c'] = none ∧
    check_num_digits ['a', 'b', 'c'] = none ∧
    check_seed ['a', 'b', 'c'] = some 0 := by
  refine ⟨rfl, ?_, ?_, ?_, ?_, ?_, by decide, by decide, by decide, by decide,
    by decide, by decide⟩
  · intro s
    simp [check_num_offsets, check_num_offsets_range, invalid_int]
  · intro s
    simp [check_num_primes, check_num_primes_range, invalid_int]
  · intro s
    simp [check_num_digits, check_num_digits_range, invalid_int]
  · intro s
    simp [check_seed, check_seed_range, invalid_int]
  · intro s
    simp [check_precision, check_precision_range, invalid_int]

end MRPrimes
